import Mathlib

/-!
Verification of the `newtext` find-and-replace tool (`src/main.rs`).

The program is shallowly embedded over `List Char`: text content is a list of
characters, pure Rust string functions become Lean functions, and the
effectful parts of `process_file` and `main` are modelled by passing the
result of each filesystem interaction (read outcome, write success)
explicitly.  The embedding covers the ASCII fragment of Rust's character
classification and case conversion, which is the fragment exercised by the
specification; Lean's `Char.toUpper`, `Char.toLower`, `Char.isAlpha`,
`Char.isUpper` and `Char.isLower` are the ASCII stand-ins for Rust's
`to_uppercase`, `to_lowercase`, `is_alphabetic`, `is_uppercase` and
`is_lowercase`.
-/

namespace Newtext

/-! ### Rust string primitives

`listContains s t` embeds `str::contains` (substring test) and
`listReplace s pat rep` embeds `str::replace` (replace every non-overlapping
occurrence, scanning left to right).  `listReplace` is written with an
explicit structural fuel so that it reduces inside the kernel; `main`
guarantees the pattern is non-empty, and the `!pat.isEmpty` guard keeps the
function total without affecting that case. -/

def listContains (s t : List Char) : Bool :=
  match s with
  | [] => t.isEmpty
  | _ :: rest => t.isPrefixOf s || listContains rest t

def listReplaceAux (pat rep : List Char) : Nat → List Char → List Char
  | 0, s => s
  | fuel + 1, s =>
    match s with
    | [] => []
    | c :: rest =>
      if pat.isPrefixOf s && !pat.isEmpty then
        rep ++ listReplaceAux pat rep fuel (s.drop pat.length)
      else
        c :: listReplaceAux pat rep fuel rest

def listReplace (s pat rep : List Char) : List Char :=
  listReplaceAux pat rep s.length s

/-! ### `apply_case_pattern` (src/main.rs lines 118-188)

The title-case and mixed-case branches of the Rust function are loops pushing
onto a result string; they are embedded as the structural recursions
`titleLoop` (carrying the `first_letter` flag) and `mixedLoop` (carrying the
not-yet-consumed alphabetic characters of the match, i.e. the state of the
Rust iterator `matched_alpha_iter`). -/

def titleLoop : List Char → Bool → List Char
  | [], _ => []
  | c :: cs, firstLetter =>
    if c.isAlpha then
      if firstLetter then c.toUpper :: titleLoop cs false
      else c.toLower :: titleLoop cs false
    else c :: titleLoop cs firstLetter

def mixedLoop : List Char → List Char → List Char
  | _, [] => []
  | ms, c :: cs =>
    if c.isAlpha then
      match ms with
      | m :: ms2 => (if m.isUpper then c.toUpper else c.toLower) :: mixedLoop ms2 cs
      | [] => c :: mixedLoop [] cs
    else c :: mixedLoop ms cs

def applyCasePattern (matched replacement : List Char) : List Char :=
  if !matched.any Char.isAlpha then replacement
  else
    match matched.filter Char.isAlpha with
    | [] => replacement
    | a0 :: arest =>
      let all_upper := (a0 :: arest).all Char.isUpper
      let all_lower := (a0 :: arest).all Char.isLower
      let first_upper := a0.isUpper && arest.all Char.isLower
      if all_upper then replacement.map Char.toUpper
      else if all_lower then replacement.map Char.toLower
      else if first_upper then titleLoop replacement true
      else mixedLoop (a0 :: arest) replacement

/-- Classification used by the title-case test of `apply_case_pattern`:
first alphabetic character uppercase, all later alphabetic characters
lowercase.  Stated over the already-filtered alphabetic characters. -/
def firstUpperPattern : List Char → Bool
  | [] => false
  | a :: rest => a.isUpper && rest.all Char.isLower

/-- Specification-side description of the mixed-case branch (spec section
4.4, rule 5), used to state claim C5: walk the replacement's alphabetic
characters in order, pairing each with the corresponding positional
alphabetic character of the match and applying that character's case;
excess replacement characters keep their original casing.  Here the first
argument is the list of alphabetic characters of the match and the second
the list of alphabetic characters of the replacement. -/
def mixedPairSpec : List Char → List Char → List Char
  | _, [] => []
  | [], c :: cs => c :: mixedPairSpec [] cs
  | m :: ms, c :: cs => (if m.isUpper then c.toUpper else c.toLower) :: mixedPairSpec ms cs

/-! ### A model of the `regex` crate fragment the program relies on

`process_file` consumes a compiled `Regex` either built by `main` (pattern
mode, lines 41-56) or built internally from `"(?i)" + regex::escape(old)`
(case-insensitive literal mode, lines 213-224).  The fragment modelled here
is: literal characters, `\`-escaped punctuation, simple character classes,
`.`, `|`, `+`, `*`, `?`, and a leading `(?i)` flag.  Constructs outside the
fragment (groups, counted repetitions, anchors, classes with ranges) are
rejected by the model parser; no claim depends on them.  Matching follows
the crate's leftmost-first semantics: the scan returns the match starting at
the earliest position, preferring greedy repetition, and `replace_all` with
a `&str` replacement performs the crate's `$`-capture interpolation. -/

def lbrace : Char := Char.ofNat 123

def rbrace : Char := Char.ofNat 125

inductive Tok where
  | litTok (c : Char)
  | dotTok
  | plusTok
  | starTok
  | optTok
  | altTok
  | classTok (neg : Bool) (items : List Char)
  deriving DecidableEq

inductive RegexError where
  | danglingEscape
  | unsupportedEscape
  | unclosedClass
  | emptyClass
  | unsupportedSyntax
  | danglingOperator
  | repeatedOperator
  deriving DecidableEq

inductive RE where
  | eps
  | lit (c : Char)
  | dot
  | cls (neg : Bool) (cs : List Char)
  | seq (a b : RE)
  | alt (a b : RE)
  | star (a : RE)
  deriving DecidableEq

structure RustRegex where
  ast : RE
  ci : Bool
  deriving DecidableEq

/-- Characters escaped by `regex::escape` (the crate's meta characters). -/
def metaChars : List Char :=
  ['\\', '.', '+', '*', '?', '(', ')', '|', '[', ']', lbrace, rbrace, '^', '$', '#', '&', '-', '~']

def isMeta (c : Char) : Bool := metaChars.contains c

/-- Embeds `regex::escape`: prefix every meta character with a backslash. -/
def escapeRust (s : List Char) : List Char :=
  s.flatMap (fun c => if isMeta c then ['\\', c] else [c])

/-- Characters of a class body: plain or backslash-escaped characters
(ranges are outside the modelled fragment). -/
def classItems : List Char → Except RegexError (List Char)
  | [] => .ok []
  | c :: rest =>
    if c = '\\' then
      match rest with
      | [] => .error .danglingEscape
      | e :: rest2 => (classItems rest2).map (e :: ·)
    else if c = '-' then .error .unsupportedSyntax
    else (classItems rest).map (c :: ·)

def tokenizeAux : Nat → List Char → Except RegexError (List Tok)
  | 0, _ => .ok []
  | _, [] => .ok []
  | fuel + 1, c :: rest =>
    if c = '\\' then
      match rest with
      | [] => .error .danglingEscape
      | e :: rest2 =>
        if e.isAlphanum then .error .unsupportedEscape
        else (tokenizeAux fuel rest2).map (Tok.litTok e :: ·)
    else if c = '[' then
      let neg := rest.head? = some '^'
      let body := if neg then rest.tail else rest
      let items := body.takeWhile (fun x => !(x = ']'))
      if items.length = body.length then .error .unclosedClass
      else if items.isEmpty then .error .emptyClass
      else
        match classItems items with
        | .error e => .error e
        | .ok cs => (tokenizeAux fuel (body.drop (items.length + 1))).map (Tok.classTok neg cs :: ·)
    else if c = '.' then (tokenizeAux fuel rest).map (Tok.dotTok :: ·)
    else if c = '+' then (tokenizeAux fuel rest).map (Tok.plusTok :: ·)
    else if c = '*' then (tokenizeAux fuel rest).map (Tok.starTok :: ·)
    else if c = '?' then (tokenizeAux fuel rest).map (Tok.optTok :: ·)
    else if c = '|' then (tokenizeAux fuel rest).map (Tok.altTok :: ·)
    else if c = '(' ∨ c = ')' ∨ c = lbrace ∨ c = rbrace ∨ c = '^' ∨ c = '$' then
      .error .unsupportedSyntax
    else (tokenizeAux fuel rest).map (Tok.litTok c :: ·)

def tokenize (s : List Char) : Except RegexError (List Tok) := tokenizeAux s.length s

/-- Split a token list at top-level alternation bars (the fragment has no
groups, so every bar is top-level). -/
def splitAlt : List Tok → List (List Tok)
  | [] => [[]]
  | t :: ts =>
    match splitAlt ts with
    | [] => [[t]]
    | ch :: chs => if t = Tok.altTok then [] :: ch :: chs else (t :: ch) :: chs

def tokAtom : Tok → Except RegexError RE
  | .litTok c => .ok (.lit c)
  | .dotTok => .ok .dot
  | .classTok neg cs => .ok (.cls neg cs)
  | _ => .error .danglingOperator

def isPostfixTok : Tok → Bool
  | .plusTok => true
  | .starTok => true
  | .optTok => true
  | _ => false

def applyPostfix (a : RE) : Tok → RE
  | .plusTok => .seq a (.star a)
  | .starTok => .star a
  | _ => .alt a .eps

def parseChunkAux : Nat → List Tok → Except RegexError RE
  | 0, _ => .ok .eps
  | _, [] => .ok .eps
  | fuel + 1, t :: rest =>
    match tokAtom t with
    | .error e => .error e
    | .ok a =>
      match rest with
      | op :: rest2 =>
        if isPostfixTok op then
          if (rest2.head?.map isPostfixTok).getD false then .error .repeatedOperator
          else (parseChunkAux fuel rest2).map (fun r => .seq (applyPostfix a op) r)
        else (parseChunkAux fuel (op :: rest2)).map (fun r => .seq a r)
      | [] => .ok (.seq a .eps)

def parseChunk (toks : List Tok) : Except RegexError RE :=
  parseChunkAux toks.length toks

def parseToks (toks : List Tok) : Except RegexError RE :=
  match (splitAlt toks).mapM parseChunk with
  | .error e => .error e
  | .ok [] => .ok .eps
  | .ok (r :: rs) => .ok (rs.foldl RE.alt r)

/-- Embeds `Regex::new`: strip a leading `(?i)` inline flag, tokenize and
parse the rest. -/
def compileRegex (pattern : List Char) : Except RegexError RustRegex :=
  let withCi : Bool × List Char :=
    match pattern with
    | '(' :: '?' :: 'i' :: ')' :: rest => (true, rest)
    | _ => (false, pattern)
  match tokenize withCi.2 with
  | .error e => .error e
  | .ok toks =>
    match parseToks toks with
    | .error e => .error e
    | .ok re => .ok ⟨re, withCi.1⟩

/-! #### Matching -/

def charEqCi (ci : Bool) (p x : Char) : Bool :=
  if ci then p.toLower == x.toLower else p == x

/-- Unroll a star: `m` matches one iteration of the starred expression,
`fuel` bounds the number of further iterations.  Every iteration must
consume at least one character (the filter), so fuel `s.length` is exact;
more iterations are tried first, giving greedy preference order. -/
def starMatch (m : List Char → List (List Char)) : Nat → List Char → List (List Char)
  | 0, s => [s]
  | f + 1, s =>
    ((m s).filter (fun r => r.length < s.length)).flatMap (fun r => starMatch m f r) ++ [s]

/-- All ways a regex can match a prefix of `s`, as the list of remaining
suffixes in the crate's preference order (greedy repetition first,
left alternative first). -/
def reMatch (ci : Bool) : RE → List Char → List (List Char)
  | .eps, s => [s]
  | .lit c, s =>
    match s with
    | [] => []
    | x :: rest => if charEqCi ci c x then [rest] else []
  | .dot, s =>
    match s with
    | [] => []
    | x :: rest => if x = '\n' then [] else [rest]
  | .cls neg cs, s =>
    match s with
    | [] => []
    | x :: rest =>
      let hit := cs.any (fun a => charEqCi ci a x)
      if (if neg then !hit else hit) then [rest] else []
  | .seq a b, s => (reMatch ci a s).flatMap (reMatch ci b)
  | .alt a b, s => reMatch ci a s ++ reMatch ci b s
  | .star a, s => starMatch (reMatch ci a) s.length s

/-- Preferred match at the start of `s`: the first remainder in preference
order, if any. -/
def matchAt (r : RustRegex) (s : List Char) : Option (List Char) :=
  (reMatch r.ci r.ast s).head?

def findLeftmostAux (r : RustRegex) : List Char → List Char → Option (List Char × List Char × List Char)
  | pre, s =>
    match matchAt r s with
    | some rem => some (pre.reverse, s.take (s.length - rem.length), rem)
    | none =>
      match s with
      | [] => none
      | c :: rest => findLeftmostAux r (c :: pre) rest

/-- Leftmost match of `r` in `s`, split as (text before, matched text,
text after). -/
def findLeftmost (r : RustRegex) (s : List Char) :
    Option (List Char × List Char × List Char) :=
  findLeftmostAux r [] s

/-- Embeds `Regex::is_match`. -/
def isMatch (r : RustRegex) (s : List Char) : Bool := (findLeftmost r s).isSome

def replaceAllAux (r : RustRegex) (f : List Char → List Char) : Nat → List Char → List Char
  | 0, s => s
  | fuel + 1, s =>
    match findLeftmost r s with
    | none => s
    | some (pre, m, post) =>
      if m.isEmpty then
        pre ++ f m ++
          (match post with
           | [] => []
           | c :: rest => c :: replaceAllAux r f fuel rest)
      else pre ++ f m ++ replaceAllAux r f fuel post

/-- Embeds `Regex::replace_all` with a replacer function: replace each
non-overlapping leftmost match, advancing one character after an empty
match as `find_iter` does. -/
def replaceAllFn (r : RustRegex) (f : List Char → List Char) (s : List Char) : List Char :=
  replaceAllAux r f (s.length + 1) s

/-! #### `$`-interpolation of a `&str` replacement

When `replace_all` is given a `&str` replacement (the regex branch of
`process_file`), the crate interpolates capture references: `$$` is a
literal dollar, `$name` (longest run of alphanumerics and underscores) and
`$\x7bname\x7d` refer to capture groups, an unknown group expands to the
empty string, and an invalid reference leaves the `$` literal.  The
modelled fragment has no capture groups, so only group 0 (the whole match)
exists. -/

def nameChar (c : Char) : Bool := c.isAlphanum || c == '_'

/-- Value of a capture-group reference: group `0` (any all-zero digit
string) is the whole match; everything else is an unknown group and
expands to the empty string. -/
def groupRef (name matched : List Char) : List Char :=
  if !name.isEmpty && name.all (fun c => c = '0') then matched else []

def expandAux (matched : List Char) : Nat → List Char → List Char
  | 0, rep => rep
  | fuel + 1, rep =>
    match rep with
    | [] => []
    | c :: rest =>
      if c = '$' then
        match rest with
        | '$' :: rest2 => '$' :: expandAux matched fuel rest2
        | _ =>
          if rest.head? = some lbrace then
            let body := rest.tail
            let name := body.takeWhile nameChar
            match body.drop name.length with
            | d :: rest2 =>
              if d = rbrace ∧ !name.isEmpty then
                groupRef name matched ++ expandAux matched fuel rest2
              else '$' :: expandAux matched fuel rest
            | [] => '$' :: expandAux matched fuel rest
          else
            let name := rest.takeWhile nameChar
            if name.isEmpty then '$' :: expandAux matched fuel rest
            else groupRef name matched ++ expandAux matched fuel (rest.drop name.length)
      else c :: expandAux matched fuel rest

/-- Embeds the crate's replacement-string interpolation. -/
def expand (rep matched : List Char) : List Char := expandAux matched rep.length rep

/-! ### `process_file` (src/main.rs lines 190-250)

Filesystem effects are made explicit: the outcome of `fs::read_to_string`
is a `ReadResult` input (distinguishing the two failure kinds the operating
system can produce, which the code itself does not distinguish), and the
success of `fs::write` is a boolean input.  The function's observable
behaviour is a `ProcOut`: `skip` for `Ok(false)` with no write, `wrote c`
for `Ok(true)` having written `c`, and `writeError` for the `Err` that
`fs::write(path, new_content)?` propagates. -/

inductive ReadError where
  | notUtf8
  | ioError
  deriving DecidableEq

inductive ReadResult where
  | ok (content : List Char)
  | err (e : ReadError)
  deriving DecidableEq

inductive ProcOut where
  | skip
  | wrote (c : List Char)
  | writeError
  deriving DecidableEq

def ciPrefix : List Char := ['(', '?', 'i', ')']

/-- The candidate `new_content` computed by `process_file` once the file's
text is loaded; `none` models the early `return Ok(false)` paths (no match,
or the unreachable compile-failure fallback of the ignore-case branch). -/
def newContentOf (content old new : List Char) (regex : Option RustRegex)
    (ignoreCase : Bool) : Option (List Char) :=
  match regex with
  | some re =>
    if isMatch re content then some (replaceAllFn re (fun m => expand new m) content)
    else none
  | none =>
    if ignoreCase then
      match compileRegex (ciPrefix ++ escapeRust old) with
      | .error _ => none
      | .ok re =>
        if isMatch re content then
          some (replaceAllFn re (fun m => applyCasePattern m new) content)
        else none
    else
      if listContains content old then some (listReplace content old new)
      else none

def process_file (read : ReadResult) (old new : List Char) (regex : Option RustRegex)
    (ignoreCase : Bool) (writeOk : Bool) : ProcOut :=
  match read with
  | .err _ => .skip
  | .ok content =>
    match newContentOf content old new regex ignoreCase with
    | none => .skip
    | some nc =>
      if nc = content then .skip
      else if writeOk then .wrote nc else .writeError

/-! ### `main` (src/main.rs lines 32-115)

The pre-traversal phase (empty-term check, then pattern compilation) is
`setup`; the walk is `runLoop`, folding `process_file` over the candidate
files exactly as the match in lines 93-104 updates the counters: `Ok(true)`
increments processed and modified, `Ok(false)` increments processed only,
`Err` prints a warning and increments neither. -/

inductive SetupError where
  | emptyQuery
  | invalidPattern
  deriving DecidableEq

def setup (old : List Char) (pattern ignoreCase : Bool) :
    Except SetupError (Option RustRegex) :=
  if old.isEmpty then .error .emptyQuery
  else if pattern then
    match compileRegex (if ignoreCase then ciPrefix ++ old else old) with
    | .ok re => .ok (some re)
    | .error _ => .error .invalidPattern
  else .ok none

structure FileEntry where
  read : ReadResult
  writeOk : Bool
  deriving DecidableEq

structure Summary where
  processed : Nat
  modified : Nat
  warnings : Nat
  writes : List (List Char)
  deriving DecidableEq

def runLoop (old new : List Char) (regex : Option RustRegex) (ignoreCase : Bool) :
    List FileEntry → Summary
  | [] => ⟨0, 0, 0, []⟩
  | f :: fs =>
    let rest := runLoop old new regex ignoreCase fs
    match process_file f.read old new regex ignoreCase f.writeOk with
    | .skip => ⟨rest.processed + 1, rest.modified, rest.warnings, rest.writes⟩
    | .wrote c => ⟨rest.processed + 1, rest.modified + 1, rest.warnings, c :: rest.writes⟩
    | .writeError => ⟨rest.processed, rest.modified, rest.warnings + 1, rest.writes⟩

inductive RunOutcome where
  | fatal (exitCode : Nat)
  | completed (s : Summary)
  deriving DecidableEq

def mainModel (old new : List Char) (pattern ignoreCase : Bool)
    (files : List FileEntry) : RunOutcome :=
  match setup old pattern ignoreCase with
  | .error _ => .fatal 1
  | .ok regex => .completed (runLoop old new regex ignoreCase files)

/-! ### Character case facts used by the case-pattern proofs -/

theorem char_toNat_ofNat (n : Nat) (h : n < 55296) : (Char.ofNat n).toNat = n := by
  rw [Char.ofNat, dif_pos (Or.inl h)]
  rfl

theorem char_isLower_toNat {c : Char} (h : c.isLower = true) :
    97 ≤ c.toNat ∧ c.toNat ≤ 122 := by
  simp only [Char.isLower, Bool.and_eq_true, decide_eq_true_eq, ge_iff_le,
    UInt32.le_def, BitVec.le_def] at h
  exact h

theorem char_isUpper_toNat {c : Char} (h : c.isUpper = true) :
    65 ≤ c.toNat ∧ c.toNat ≤ 90 := by
  simp only [Char.isUpper, Bool.and_eq_true, decide_eq_true_eq, ge_iff_le,
    UInt32.le_def, BitVec.le_def] at h
  exact h

theorem char_toNat_isUpper {c : Char} (h1 : 65 ≤ c.toNat) (h2 : c.toNat ≤ 90) :
    c.isUpper = true := by
  simp only [Char.isUpper, Bool.and_eq_true, decide_eq_true_eq, ge_iff_le,
    UInt32.le_def, BitVec.le_def]
  exact ⟨h1, h2⟩

theorem char_toNat_isLower {c : Char} (h1 : 97 ≤ c.toNat) (h2 : c.toNat ≤ 122) :
    c.isLower = true := by
  simp only [Char.isLower, Bool.and_eq_true, decide_eq_true_eq, ge_iff_le,
    UInt32.le_def, BitVec.le_def]
  exact ⟨h1, h2⟩

theorem toUpper_isAlpha {c : Char} (h : c.isAlpha = true) : (c.toUpper).isAlpha = true := by
  rw [Char.isAlpha, Bool.or_eq_true] at h
  rw [Char.toUpper]
  rcases h with h | h
  · obtain ⟨h1, h2⟩ := char_isUpper_toNat h
    rw [if_neg (by omega)]
    rw [Char.isAlpha, h, Bool.true_or]
  · obtain ⟨h1, h2⟩ := char_isLower_toNat h
    rw [if_pos (by omega)]
    have : (Char.ofNat (c.toNat - 32)).isUpper = true := by
      have hv : (Char.ofNat (c.toNat - 32)).toNat = c.toNat - 32 :=
        char_toNat_ofNat _ (by omega)
      exact char_toNat_isUpper (by omega) (by omega)
    rw [Char.isAlpha, this, Bool.true_or]

theorem toLower_isAlpha {c : Char} (h : c.isAlpha = true) : (c.toLower).isAlpha = true := by
  rw [Char.isAlpha, Bool.or_eq_true] at h
  rw [Char.toLower]
  rcases h with h | h
  · obtain ⟨h1, h2⟩ := char_isUpper_toNat h
    rw [if_pos (by omega)]
    have : (Char.ofNat (c.toNat + 32)).isLower = true := by
      have hv : (Char.ofNat (c.toNat + 32)).toNat = c.toNat + 32 :=
        char_toNat_ofNat _ (by omega)
      exact char_toNat_isLower (by omega) (by omega)
    rw [Char.isAlpha, this, Bool.or_true]
  · obtain ⟨h1, h2⟩ := char_isLower_toNat h
    rw [if_neg (by omega)]
    rw [Char.isAlpha, h, Bool.or_true]


/-! ### Substring facts about `listReplace`

The key fact behind claims C1 and C6: when the replacement is non-empty and
shares no character with the (non-empty) pattern, the output of
`listReplace` contains no occurrence of the pattern. -/

theorem listContains_iff {s t : List Char} : listContains s t = true ↔ t <:+: s := by
  induction s with
  | nil =>
    simp only [listContains, List.isEmpty_iff]
    exact ⟨fun h => h ▸ List.infix_rfl, fun h => List.eq_nil_of_infix_nil h⟩
  | cons c rest ih =>
    show (t.isPrefixOf (c :: rest) || listContains rest t) = true ↔ _
    rw [Bool.or_eq_true, List.isPrefixOf_iff_prefix, ih, List.infix_cons_iff]

theorem infix_of_infix_append {q rep X : List Char} (hq : q ≠ [])
    (hd : ∀ c ∈ q, c ∉ rep) (h : q <:+: rep ++ X) : q <:+: X := by
  induction rep with
  | nil => simpa using h
  | cons r rs ih =>
    rw [List.cons_append, List.infix_cons_iff] at h
    rcases h with h | h
    · obtain ⟨a, q2, rfl⟩ : ∃ a q2, q = a :: q2 := by
        cases q with
        | nil => exact absurd rfl hq
        | cons a q2 => exact ⟨a, q2, rfl⟩
      rw [List.cons_prefix_cons] at h
      exact absurd (List.mem_cons_self r rs) (h.1 ▸ hd a (List.mem_cons_self a q2))
    · exact ih (fun c hc hmem => hd c hc (List.mem_cons_of_mem r hmem)) h

theorem prefix_of_prefix_listReplaceAux {rep : List Char} (hrep : rep ≠ [])
    (pat : List Char) :
    ∀ fuel s q, (∀ c ∈ q, c ∉ rep) → q <+: listReplaceAux pat rep fuel s → q <+: s := by
  intro fuel
  induction fuel with
  | zero => intro s q _ h; exact h
  | succ fuel ih =>
    intro s q hq h
    match s with
    | [] =>
      rw [show listReplaceAux pat rep (fuel + 1) [] = [] from rfl] at h
      exact h
    | c :: rest =>
      by_cases hif : (pat.isPrefixOf (c :: rest) && !pat.isEmpty) = true
      · rw [show listReplaceAux pat rep (fuel + 1) (c :: rest) =
            rep ++ listReplaceAux pat rep fuel ((c :: rest).drop pat.length) by
          rw [listReplaceAux]; rw [if_pos hif]] at h
        match q with
        | [] => exact List.nil_prefix
        | a :: q2 =>
          match rep, hrep with
          | r :: rs, _ =>
            rw [List.cons_append, List.cons_prefix_cons] at h
            exact absurd (List.mem_cons_self r rs) (h.1 ▸ hq a (List.mem_cons_self a q2))
      · rw [show listReplaceAux pat rep (fuel + 1) (c :: rest) =
            c :: listReplaceAux pat rep fuel rest by
          rw [listReplaceAux]; rw [if_neg hif]] at h
        match q with
        | [] => exact List.nil_prefix
        | a :: q2 =>
          rw [List.cons_prefix_cons] at h
          obtain ⟨rfl, h2⟩ := h
          exact List.cons_prefix_cons.mpr ⟨rfl, ih rest q2 (fun x hx => hq x (List.mem_cons_of_mem a hx)) h2⟩

theorem listReplaceAux_no_infix {pat rep : List Char} (hpat : pat ≠ []) (hrep : rep ≠ [])
    (hd : ∀ c ∈ pat, c ∉ rep) :
    ∀ fuel s, s.length ≤ fuel → ¬ pat <:+: listReplaceAux pat rep fuel s := by
  intro fuel
  induction fuel with
  | zero =>
    intro s hs h
    have : s = [] := List.length_eq_zero.mp (Nat.le_zero.mp hs)
    subst this
    exact hpat (List.eq_nil_of_infix_nil h)
  | succ fuel ih =>
    intro s hs h
    match s with
    | [] => exact hpat (List.eq_nil_of_infix_nil h)
    | c :: rest =>
      by_cases hif : (pat.isPrefixOf (c :: rest) && !pat.isEmpty) = true
      · rw [show listReplaceAux pat rep (fuel + 1) (c :: rest) =
            rep ++ listReplaceAux pat rep fuel ((c :: rest).drop pat.length) by
          rw [listReplaceAux]; rw [if_pos hif]] at h
        have h2 := infix_of_infix_append hpat hd h
        have hlen : ((c :: rest).drop pat.length).length ≤ fuel := by
          rw [List.length_drop]
          have : 1 ≤ pat.length := by
            match pat, hpat with
            | p :: ps, _ => simp [List.length_cons]
          simp only [List.length_cons] at hs ⊢
          omega
        exact ih _ hlen h2
      · rw [show listReplaceAux pat rep (fuel + 1) (c :: rest) =
            c :: listReplaceAux pat rep fuel rest by
          rw [listReplaceAux]; rw [if_neg hif]] at h
        rw [List.infix_cons_iff] at h
        rcases h with h | h
        · have hpre : pat <+: c :: rest := by
            have := prefix_of_prefix_listReplaceAux hrep pat (fuel + 1) (c :: rest) pat hd
            apply this
            rw [show listReplaceAux pat rep (fuel + 1) (c :: rest) =
                c :: listReplaceAux pat rep fuel rest by
              rw [listReplaceAux]; rw [if_neg hif]]
            exact h
          apply hif
          rw [Bool.and_eq_true]
          refine ⟨List.isPrefixOf_iff_prefix.mpr hpre, ?_⟩
          simp [List.isEmpty_iff, hpat]
        · have hlen : rest.length ≤ fuel := by
            simp only [List.length_cons] at hs
            omega
          exact ih rest hlen h

/-- Central lemma for C1 and C6: replacing a non-empty pattern by a
non-empty replacement sharing no character with it leaves no occurrence of
the pattern in the result. -/
theorem listReplace_no_occurrence {pat rep : List Char} (hpat : pat ≠ []) (hrep : rep ≠ [])
    (hd : ∀ c ∈ pat, c ∉ rep) (s : List Char) :
    listContains (listReplace s pat rep) pat = false := by
  rw [Bool.eq_false_iff]
  intro h
  exact listReplaceAux_no_infix hpat hrep hd s.length s (Nat.le_refl _) (listContains_iff.mp h)

/-! ### Claim C4: the five case-inference examples -/

/-- Claim C4: the case pattern inference function satisfies the five spec
examples: an all-uppercase match uppercases the replacement, an
all-lowercase match lowercases it, a title-case match title-cases it, a
mixed-case match maps casing positionally, and a match with no alphabetic
characters returns the replacement unchanged. -/
theorem claim4_case_inference_examples :
    applyCasePattern "BAR".toList "foo".toList = "FOO".toList ∧
    applyCasePattern "bar".toList "foo".toList = "foo".toList ∧
    applyCasePattern "Bar".toList "foo".toList = "Foo".toList ∧
    applyCasePattern "bAr".toList "foo".toList = "fOo".toList ∧
    applyCasePattern "123".toList "foo".toList = "foo".toList := by
  decide

/-! ### Claim C7: identical candidate content is reported `Unchanged` -/

/-- Claim C7: in every mode, when the candidate new content produced by the
replacement step is identical to the original content, the outcome is the
unchanged/skip outcome and no write occurs, even though a match was found
(a candidate exists only when a match was found). -/
theorem claim7_identical_candidate_unchanged (content old new : List Char)
    (regex : Option RustRegex) (ignoreCase writeOk : Bool)
    (h : newContentOf content old new regex ignoreCase = some content) :
    process_file (.ok content) old new regex ignoreCase writeOk = .skip := by
  show (match newContentOf content old new regex ignoreCase with
    | none => ProcOut.skip
    | some nc =>
      if nc = content then ProcOut.skip
      else if writeOk then ProcOut.wrote nc else ProcOut.writeError) = ProcOut.skip
  rw [h]
  simp

/-- Witness for C7 at a concrete input where the replacement term equals the
search term, so a match is found yet the file is left alone. -/
theorem claim7_witness :
    process_file (.ok "xax".toList) "a".toList "a".toList none false true = .skip :=
  claim7_identical_candidate_unchanged _ _ _ _ _ _ (by decide)

/-! ### Claim C8: a file that fails text decoding is skipped, not an error -/

/-- Claim C8: a file whose bytes fail to decode as text is classified as
binary and skipped: `process_file` yields the skip signal (not a warning),
the content is never rewritten, and the traversal continues over the
remaining files with only the processed counter incremented. -/
theorem claim8_binary_skip (old new : List Char) (regex : Option RustRegex)
    (ignoreCase writeOk : Bool) (fs : List FileEntry) :
    process_file (.err .notUtf8) old new regex ignoreCase writeOk = .skip ∧
    runLoop old new regex ignoreCase (⟨.err .notUtf8, writeOk⟩ :: fs) =
      ⟨(runLoop old new regex ignoreCase fs).processed + 1,
       (runLoop old new regex ignoreCase fs).modified,
       (runLoop old new regex ignoreCase fs).warnings,
       (runLoop old new regex ignoreCase fs).writes⟩ :=
  ⟨rfl, rfl⟩

/-! ### Claim C2: what actually happens on a true I/O read failure

The claim says a read failure that is a true I/O error (permission denied,
path vanished) surfaces as a per-file warning.  The code matches `Err(_)`
on `fs::read_to_string` (line 200) and returns `Ok(false)`, so every read
failure — I/O or decode — takes the silent binary-skip path; the only
per-file warning comes from a failed `fs::write`. -/

/-- Counterexample to C2: a file whose read fails with a true I/O error
produces the silent skip outcome, and the traversal records no warning for
it (one file processed, zero warnings), contradicting the claimed
per-file warning. -/
theorem claim2_counterexample :
    process_file (.err .ioError) "a".toList "b".toList none false true = .skip ∧
    runLoop "a".toList "b".toList none false [⟨.err .ioError, true⟩] = ⟨1, 0, 0, []⟩ := by
  decide

/-- Claim C2 as amended: every read failure, I/O error or decode failure
alike, is treated as the silent binary-skip outcome; the recoverable
per-file warning arises only from a write failure after a successful match,
and the traversal continues past such a warning with the next candidate. -/
theorem claim2_amended :
    (∀ e old new regex ic w, process_file (.err e) old new regex ic w = .skip) ∧
    (∀ content old new regex ic nc,
      newContentOf content old new regex ic = some nc → nc ≠ content →
      process_file (.ok content) old new regex ic false = .writeError) ∧
    (∀ old new regex ic f fs,
      process_file f.read old new regex ic f.writeOk = .writeError →
      runLoop old new regex ic (f :: fs) =
        ⟨(runLoop old new regex ic fs).processed,
         (runLoop old new regex ic fs).modified,
         (runLoop old new regex ic fs).warnings + 1,
         (runLoop old new regex ic fs).writes⟩) := by
  refine ⟨fun e old new regex ic w => rfl, ?_, ?_⟩
  · intro content old new regex ic nc h hne
    show (match newContentOf content old new regex ic with
      | none => ProcOut.skip
      | some nc =>
        if nc = content then ProcOut.skip
        else if false then ProcOut.wrote nc else ProcOut.writeError) = ProcOut.writeError
    rw [h]
    simp [hne]
  · intro old new regex ic f fs h
    show (match process_file f.read old new regex ic f.writeOk with
      | .skip =>
        (⟨(runLoop old new regex ic fs).processed + 1, (runLoop old new regex ic fs).modified,
          (runLoop old new regex ic fs).warnings, (runLoop old new regex ic fs).writes⟩ : Summary)
      | .wrote c =>
        ⟨(runLoop old new regex ic fs).processed + 1, (runLoop old new regex ic fs).modified + 1,
          (runLoop old new regex ic fs).warnings, c :: (runLoop old new regex ic fs).writes⟩
      | .writeError =>
        ⟨(runLoop old new regex ic fs).processed, (runLoop old new regex ic fs).modified,
          (runLoop old new regex ic fs).warnings + 1, (runLoop old new regex ic fs).writes⟩) =
      ⟨(runLoop old new regex ic fs).processed, (runLoop old new regex ic fs).modified,
        (runLoop old new regex ic fs).warnings + 1, (runLoop old new regex ic fs).writes⟩
    rw [h]

/-- Witness for C2 as amended, at concrete inputs: an I/O read failure
skips; a failed write after a match surfaces the warning outcome; the
traversal counts that warning and moves on. -/
theorem claim2_amended_witness :
    process_file (.err .ioError) "a".toList "b".toList none false true = .skip ∧
    process_file (.ok "f".toList) "f".toList "g".toList none false false = .writeError ∧
    runLoop "f".toList "g".toList none false [⟨.ok "f".toList, false⟩] = ⟨0, 0, 1, []⟩ := by
  refine ⟨claim2_amended.1 .ioError _ _ none false true, ?_, ?_⟩
  · exact claim2_amended.2.1 _ _ _ none false "g".toList (by decide) (by decide)
  · have h := claim2_amended.2.2 "f".toList "g".toList none false ⟨.ok "f".toList, false⟩ []
      (claim2_amended.2.1 _ _ _ none false "g".toList (by decide) (by decide))
    rw [h]
    decide

/-! ### Claim C3: regex-mode replacement and `$`-interpolation

The claim says the inserted text is exactly the user-supplied replacement
term.  `replace_all` with a `&str` replacement interpolates `$` capture
references, so a replacement term containing `$` is not inserted verbatim:
an unknown group reference expands to the empty string. -/

/-- Counterexample to C3: with the compiled pattern `f` and replacement
term `$z`, the content `f` is rewritten to the empty string — the inserted
text is not the replacement term `$z`. -/
theorem claim3_counterexample :
    (compileRegex "f".toList).toOption = some ⟨.seq (.lit 'f') .eps, false⟩ ∧
    process_file (.ok "f".toList) "f".toList "$z".toList
      (some ⟨.seq (.lit 'f') .eps, false⟩) false true = .wrote [] ∧
    ([] : List Char) ≠ "$z".toList := by
  decide

/-! ### Claim C1: literal case-sensitive replacement

The claim asserts that no occurrence of the search term remains unless the
replacement term contains it.  `str::replace` scans left to right over the
original content, so a new occurrence can be formed where retained text
meets an inserted replacement, even when the replacement does not contain
the term. -/

/-- Counterexample to C1: content `aabaa`, term `aba`, replacement `b`.
The content contains the term, the replacement does not contain the term,
yet the rewritten content `aba` (= `a` + `b` + `a`) again contains the
term. -/
theorem claim1_counterexample :
    listContains "aabaa".toList "aba".toList = true ∧
    listContains "b".toList "aba".toList = false ∧
    process_file (.ok "aabaa".toList) "aba".toList "b".toList none false true =
      .wrote "aba".toList ∧
    listContains "aba".toList "aba".toList = true := by
  decide

/-- Claim C1 as amended: for content containing the term, literal
case-sensitive replacement rewrites the file with every non-overlapping
occurrence (found left to right) replaced; and when the replacement term is
non-empty and shares no character with the term — which rules out the
boundary effect of the counterexample as well as the replacement containing
the term — no occurrence of the term remains in the result. -/
theorem claim1_amended (content pat rep : List Char)
    (hpat : pat ≠ []) (hrep : rep ≠ []) (hd : ∀ c ∈ pat, c ∉ rep)
    (hc : listContains content pat = true) :
    process_file (.ok content) pat rep none false true =
      .wrote (listReplace content pat rep) ∧
    listContains (listReplace content pat rep) pat = false := by
  have hno := listReplace_no_occurrence hpat hrep hd content
  have hne : listReplace content pat rep ≠ content := by
    intro he
    rw [he, hc] at hno
    exact Bool.noConfusion hno
  refine ⟨?_, hno⟩
  show (match newContentOf content pat rep none false with
    | none => ProcOut.skip
    | some nc =>
      if nc = content then ProcOut.skip
      else if true then ProcOut.wrote nc else ProcOut.writeError) = _
  rw [show newContentOf content pat rep none false = some (listReplace content pat rep) by
    unfold newContentOf
    simp [hc]]
  simp [hne]

/-- Witness for C1 as amended at term `foo`, replacement `bar`, content
`xfooyfoo`: the file is rewritten to `xbarybar` and no `foo` remains. -/
theorem claim1_amended_witness :
    process_file (.ok "xfooyfoo".toList) "foo".toList "bar".toList none false true =
      .wrote (listReplace "xfooyfoo".toList "foo".toList "bar".toList) ∧
    listContains (listReplace "xfooyfoo".toList "foo".toList "bar".toList) "foo".toList = false :=
  claim1_amended "xfooyfoo".toList "foo".toList "bar".toList
    (by decide) (by decide) (by decide) (by decide)

/-! ### Claim C6: replacing `foo` by `bar` is idempotent -/

/-- Claim C6: after literally replacing `foo` by `bar` in any content, a
second run with the same arguments finds no occurrence of `foo` and reports
the unchanged outcome (it holds whether or not the first run found a
match, since without a match the content is returned untouched). -/
theorem claim6_foo_bar_rerun_unchanged (content : List Char) :
    process_file (.ok (listReplace content "foo".toList "bar".toList))
      "foo".toList "bar".toList none false true = .skip := by
  have hno := @listReplace_no_occurrence "foo".toList "bar".toList
    (by decide) (by decide) (by decide) content
  show (match newContentOf (listReplace content "foo".toList "bar".toList)
      "foo".toList "bar".toList none false with
    | none => ProcOut.skip
    | some nc =>
      if nc = listReplace content "foo".toList "bar".toList then ProcOut.skip
      else if true then ProcOut.wrote nc else ProcOut.writeError) = ProcOut.skip
  rw [show newContentOf (listReplace content "foo".toList "bar".toList)
      "foo".toList "bar".toList none false = none by
    unfold newContentOf
    have hno2 : listContains (listReplace content ['f', 'o', 'o'] ['b', 'a', 'r'])
        ['f', 'o', 'o'] = false := hno
    simp [hno2]]

/-! ### Claim C5: the mixed-case branch of case inference -/

theorem mixedLoop_length (cs : List Char) : ∀ ms, (mixedLoop ms cs).length = cs.length := by
  induction cs with
  | nil => intro ms; cases ms <;> rfl
  | cons c cs ih =>
    intro ms
    by_cases hc : c.isAlpha = true
    · match ms with
      | m :: ms2 => simp [mixedLoop, hc, ih]
      | [] => simp [mixedLoop, hc, ih]
    · simp [mixedLoop, hc, ih]

theorem mixedLoop_filter (cs : List Char) :
    ∀ ms, (mixedLoop ms cs).filter Char.isAlpha =
      mixedPairSpec ms (cs.filter Char.isAlpha) := by
  induction cs with
  | nil => intro ms; cases ms <;> rfl
  | cons c cs ih =>
    intro ms
    by_cases hc : c.isAlpha = true
    · match ms with
      | m :: ms2 =>
        by_cases hm : m.isUpper = true
        · simp [mixedLoop, hc, hm, List.filter_cons, toUpper_isAlpha hc, ih, mixedPairSpec]
        · simp [mixedLoop, hc, hm, List.filter_cons, toLower_isAlpha hc, ih, mixedPairSpec]
      | [] => simp [mixedLoop, hc, List.filter_cons, ih, mixedPairSpec]
    · simp [mixedLoop, hc, List.filter_cons, ih]

theorem mixedLoop_zip (cs : List Char) :
    ∀ ms, ((mixedLoop ms cs).zip cs).all (fun p => p.2.isAlpha || p.1 == p.2) = true := by
  induction cs with
  | nil => intro ms; cases ms <;> rfl
  | cons c cs ih =>
    intro ms
    by_cases hc : c.isAlpha = true
    · match ms with
      | m :: ms2 => simp [mixedLoop, hc, List.zip_cons_cons, ih]
      | [] => simp [mixedLoop, hc, List.zip_cons_cons, ih]
    · simp [mixedLoop, hc, List.zip_cons_cons, ih]

/-- Claim C5: for a matched fragment with mixed-case alphabetic characters
(some letters but not all-upper, not all-lower, not title pattern), case
inference takes the positional branch: the result has the replacement's
length, its alphabetic characters are the replacement's alphabetic
characters cased positionally by the match's alphabetic characters with
excess characters keeping their original casing (`mixedPairSpec`), and
every non-alphabetic character of the replacement is emitted unchanged at
its position. -/
theorem claim5_mixed_case_positional (matched repl : List Char)
    (h1 : matched.any Char.isAlpha = true)
    (h2 : (matched.filter Char.isAlpha).all Char.isUpper = false)
    (h3 : (matched.filter Char.isAlpha).all Char.isLower = false)
    (h4 : firstUpperPattern (matched.filter Char.isAlpha) = false) :
    applyCasePattern matched repl = mixedLoop (matched.filter Char.isAlpha) repl ∧
    (mixedLoop (matched.filter Char.isAlpha) repl).length = repl.length ∧
    (mixedLoop (matched.filter Char.isAlpha) repl).filter Char.isAlpha =
      mixedPairSpec (matched.filter Char.isAlpha) (repl.filter Char.isAlpha) ∧
    ((mixedLoop (matched.filter Char.isAlpha) repl).zip repl).all
      (fun p => p.2.isAlpha || p.1 == p.2) = true := by
  refine ⟨?_, mixedLoop_length _ _, mixedLoop_filter _ _, mixedLoop_zip _ _⟩
  unfold applyCasePattern
  rw [h1]
  cases hfil : matched.filter Char.isAlpha with
  | nil =>
    rw [hfil] at h2
    simp at h2
  | cons a0 arest =>
    rw [hfil] at h2 h3 h4
    have h4b : (a0.isUpper && arest.all Char.isLower) = false := h4
    simp only [Bool.not_true, Bool.false_eq_true, if_false, h2, h3, h4b]

/-- Witness for C5 at match `bAr` and replacement `fo!ox` (more letters in
the replacement than in the match, plus a non-alphabetic character). -/
theorem claim5_witness :
    applyCasePattern "bAr".toList "fo!ox".toList =
      mixedLoop ("bAr".toList.filter Char.isAlpha) "fo!ox".toList ∧
    (mixedLoop ("bAr".toList.filter Char.isAlpha) "fo!ox".toList).length =
      "fo!ox".toList.length ∧
    (mixedLoop ("bAr".toList.filter Char.isAlpha) "fo!ox".toList).filter Char.isAlpha =
      mixedPairSpec ("bAr".toList.filter Char.isAlpha) ("fo!ox".toList.filter Char.isAlpha) ∧
    ((mixedLoop ("bAr".toList.filter Char.isAlpha) "fo!ox".toList).zip "fo!ox".toList).all
      (fun p => p.2.isAlpha || p.1 == p.2) = true :=
  claim5_mixed_case_positional "bAr".toList "fo!ox".toList
    (by decide) (by decide) (by decide) (by decide)

/-! ### Claim C3: regex-mode replacement (amended) -/

theorem expandAux_no_dollar (m : List Char) :
    ∀ fuel rep, '$' ∉ rep → expandAux m fuel rep = rep := by
  intro fuel
  induction fuel with
  | zero => intro rep _; rfl
  | succ fuel ih =>
    intro rep h
    match rep with
    | [] => rfl
    | c :: rest =>
      have hc : ¬ c = '$' := fun he => h (he ▸ List.mem_cons_self c rest)
      simp only [expandAux]
      rw [if_neg hc, ih rest (fun hm => h (List.mem_cons_of_mem c hm))]

/-- No-dollar replacement terms are interpolated to themselves. -/
theorem expand_no_dollar (new m : List Char) (h : '$' ∉ new) : expand new m = new :=
  expandAux_no_dollar m new.length new h

/-- Claim C3 as amended: in regex mode, if the compiled pattern has no
match the outcome is the unchanged skip; otherwise every non-overlapping
match is replaced left to right by the `$`-interpolated replacement term
(no case inference); when the replacement term contains no `$` the
inserted text is exactly the user-supplied term; and the term `f[o]+`
replaces both `foo` and `fooo` occurring in the same content. -/
theorem claim3_amended :
    (∀ re content old new ic w, isMatch re content = false →
      process_file (.ok content) old new (some re) ic w = .skip) ∧
    (∀ re content old new ic, isMatch re content = true →
      newContentOf content old new (some re) ic =
        some (replaceAllFn re (fun m => expand new m) content)) ∧
    (∀ new m, '$' ∉ new → expand new m = new) ∧
    process_file (.ok "foo and fooo".toList) "f[o]+".toList "bar".toList
      (some ⟨.seq (.lit 'f') (.seq (.seq (.cls false ['o']) (.star (.cls false ['o']))) .eps),
        false⟩) false true = .wrote "bar and bar".toList ∧
    (compileRegex "f[o]+".toList).toOption =
      some ⟨.seq (.lit 'f') (.seq (.seq (.cls false ['o']) (.star (.cls false ['o']))) .eps),
        false⟩ := by
  refine ⟨?_, ?_, fun new m h => expand_no_dollar new m h, by decide, by decide⟩
  · intro re content old new ic w h
    show (match newContentOf content old new (some re) ic with
      | none => ProcOut.skip
      | some nc =>
        if nc = content then ProcOut.skip
        else if w then ProcOut.wrote nc else ProcOut.writeError) = ProcOut.skip
    rw [show newContentOf content old new (some re) ic = none by
      unfold newContentOf
      simp [h]]
  · intro re content old new ic h
    unfold newContentOf
    simp [h]

/-- Witness for C3 as amended at concrete inputs: a non-matching content
skips, a matching content yields the interpolated rewrite, and a
dollar-free term is inserted verbatim. -/
theorem claim3_amended_witness :
    process_file (.ok "xyz".toList) "f".toList "bar".toList
      (some ⟨.seq (.lit 'f') .eps, false⟩) false true = .skip ∧
    newContentOf "wfv".toList "f".toList "bar".toList
      (some ⟨.seq (.lit 'f') .eps, false⟩) false =
      some (replaceAllFn ⟨.seq (.lit 'f') .eps, false⟩
        (fun m => expand "bar".toList m) "wfv".toList) ∧
    expand "bar".toList "f".toList = "bar".toList := by
  refine ⟨claim3_amended.1 _ _ _ _ false true (by decide),
    claim3_amended.2.1 _ _ _ _ false (by decide),
    claim3_amended.2.2.1 "bar".toList "f".toList (by decide)⟩

/-! ### Claim C9: fatal pre-traversal failures -/

/-- Claim C9: an empty search term fails with the empty-query error before
any pattern compilation is attempted (whatever the flags), a pattern-mode
run whose pattern does not compile fails with the invalid-pattern error,
and in either case the run exits with code 1 before any file is touched —
`mainModel` is fatal for every file list. -/
theorem claim9_fatal_pre_traversal :
    (∀ p i, setup [] p i = .error .emptyQuery) ∧
    (∀ old i, old ≠ [] →
      (compileRegex (if i then ciPrefix ++ old else old)).isOk = false →
      setup old true i = .error .invalidPattern) ∧
    (∀ old new p i files, (setup old p i).isOk = false →
      mainModel old new p i files = .fatal 1) := by
  refine ⟨fun p i => rfl, ?_, ?_⟩
  · intro old i hne hfail
    have h0 : old.isEmpty = false := by
      cases old with
      | nil => exact absurd rfl hne
      | cons c cs => rfl
    unfold setup
    rw [h0]
    cases hcomp : compileRegex (if i then ciPrefix ++ old else old) with
    | ok re => rw [hcomp] at hfail; exact Bool.noConfusion hfail
    | error e => simp [hcomp]
  · intro old new p i files h
    cases hs : setup old p i with
    | ok re => rw [hs] at h; exact Bool.noConfusion h
    | error e =>
      unfold mainModel
      rw [hs]

/-- Witness for C9: the empty term errors out even in pattern mode, the
malformed pattern `[` errors out, and with that pattern the whole run is
fatal without touching the supplied file. -/
theorem claim9_witness :
    setup [] true false = .error .emptyQuery ∧
    setup "[".toList true false = .error .invalidPattern ∧
    mainModel "[".toList "x".toList true false [⟨.ok "a".toList, true⟩] = .fatal 1 := by
  refine ⟨claim9_fatal_pre_traversal.1 true false,
    claim9_fatal_pre_traversal.2.1 "[".toList false (by decide) (by decide),
    claim9_fatal_pre_traversal.2.2 "[".toList "x".toList true false
      [⟨.ok "a".toList, true⟩] (by decide)⟩

/-! ### Claim C10: the internally built case-insensitive regex always compiles

`process_file`'s ignore-case branch builds the pattern
`"(?i)" + regex::escape(old)` and falls back to silently skipping the file
if compilation fails (lines 217-220).  Escaping turns every meta character
into an escaped literal, so the pattern always tokenizes to plain literal
tokens and the parse cannot fail. -/

theorem mem_metaChars_of_isMeta {c : Char} (h : isMeta c = true) : c ∈ metaChars := by
  rw [isMeta] at h
  exact List.elem_iff.mp h

theorem not_mem_metaChars_of_not_isMeta {c : Char} (h : isMeta c = false) : c ∉ metaChars := by
  intro hm
  have h2 : isMeta c = true := List.elem_iff.mpr hm
  rw [h2] at h
  exact Bool.noConfusion h

theorem meta_not_alphanum {c : Char} (h : isMeta c = true) : c.isAlphanum = false := by
  have hmem := mem_metaChars_of_isMeta h
  fin_cases hmem <;> decide

theorem tokenizeAux_escape (old : List Char) :
    ∀ fuel, (escapeRust old).length ≤ fuel →
    tokenizeAux fuel (escapeRust old) = .ok (old.map Tok.litTok) := by
  induction old with
  | nil =>
    intro fuel _
    rw [show escapeRust [] = [] from rfl]
    cases fuel <;> rfl
  | cons c cs ih =>
    intro fuel h
    by_cases hm : isMeta c = true
    · rw [show escapeRust (c :: cs) = '\\' :: c :: escapeRust cs by
        simp [escapeRust, hm]] at h ⊢
      match fuel, h with
      | fuel + 1, h =>
        simp only [tokenizeAux]
        rw [if_pos True.intro]
        have hfuel : (escapeRust cs).length ≤ fuel := by
          simp only [List.length_cons] at h
          omega
        rw [show c.isAlphanum = false from meta_not_alphanum hm]
        simp only [Bool.false_eq_true, if_false]
        rw [ih fuel hfuel]
        rfl
    · have hm2 : isMeta c = false := Bool.not_eq_true _ ▸ hm
      have hnm := not_mem_metaChars_of_not_isMeta hm2
      rw [show escapeRust (c :: cs) = c :: escapeRust cs by simp [escapeRust, hm2]] at h ⊢
      match fuel, h with
      | fuel + 1, h =>
        have hfuel : (escapeRust cs).length ≤ fuel := by
          simp only [List.length_cons] at h
          omega
        simp only [tokenizeAux]
        rw [if_neg (fun he => hnm (by rw [he]; decide)),
          if_neg (fun he => hnm (by rw [he]; decide)),
          if_neg (fun he => hnm (by rw [he]; decide)),
          if_neg (fun he => hnm (by rw [he]; decide)),
          if_neg (fun he => hnm (by rw [he]; decide)),
          if_neg (fun he => hnm (by rw [he]; decide)),
          if_neg (fun he => hnm (by rw [he]; decide))]
        rw [if_neg (by
          push_neg
          refine ⟨fun he => hnm (by rw [he]; decide), fun he => hnm (by rw [he]; decide),
            fun he => hnm (by rw [he]; decide), fun he => hnm (by rw [he]; decide),
            fun he => hnm (by rw [he]; decide), fun he => hnm (by rw [he]; decide)⟩)]
        rw [ih fuel hfuel]
        rfl

theorem tokenize_escape (old : List Char) :
    tokenize (escapeRust old) = .ok (old.map Tok.litTok) :=
  tokenizeAux_escape old _ (Nat.le_refl _)

theorem splitAlt_lits (old : List Char) :
    splitAlt (old.map Tok.litTok) = [old.map Tok.litTok] := by
  induction old with
  | nil => rfl
  | cons c cs ih =>
    show splitAlt (Tok.litTok c :: cs.map Tok.litTok) = _
    rw [splitAlt]
    rw [ih]
    rfl

theorem parseChunkAux_lits (old : List Char) :
    ∀ fuel, old.length ≤ fuel →
    ∃ r, parseChunkAux fuel (old.map Tok.litTok) = .ok r := by
  induction old with
  | nil =>
    intro fuel _
    cases fuel <;> exact ⟨.eps, rfl⟩
  | cons c cs ih =>
    intro fuel h
    match fuel, h with
    | fuel + 1, h =>
      cases cs with
      | nil => exact ⟨.seq (.lit c) .eps, rfl⟩
      | cons c2 cs2 =>
        obtain ⟨r, hr⟩ := ih fuel (by simp only [List.length_cons] at h ⊢; omega)
        refine ⟨.seq (.lit c) r, ?_⟩
        show (parseChunkAux fuel (Tok.litTok c2 :: cs2.map Tok.litTok)).map
          (fun r => RE.seq (.lit c) r) = _
        rw [show Tok.litTok c2 :: cs2.map Tok.litTok = (c2 :: cs2).map Tok.litTok from rfl, hr]
        rfl

theorem compileRegex_ci_escape (old : List Char) :
    ∃ re, compileRegex (ciPrefix ++ escapeRust old) = .ok re := by
  obtain ⟨r, hr⟩ := parseChunkAux_lits old (old.map Tok.litTok).length
    (by rw [List.length_map])
  refine ⟨⟨r, true⟩, ?_⟩
  show (match tokenize (escapeRust old) with
    | Except.error e => (Except.error e : Except RegexError RustRegex)
    | Except.ok toks =>
      match parseToks toks with
      | Except.error e => Except.error e
      | Except.ok re => Except.ok (⟨re, true⟩ : RustRegex)) = _
  rw [tokenize_escape]
  show (match parseToks (old.map Tok.litTok) with
    | Except.error e => (Except.error e : Except RegexError RustRegex)
    | Except.ok re => Except.ok (⟨re, true⟩ : RustRegex)) = _
  rw [show parseToks (old.map Tok.litTok) = .ok r by
    unfold parseToks
    rw [splitAlt_lits]
    rw [show ([old.map Tok.litTok].mapM parseChunk : Except RegexError (List RE)) =
      (parseChunk (old.map Tok.litTok)).map (fun x => [x]) by
        simp [List.mapM_cons, List.mapM_nil, Except.map]
        rfl]
    rw [show parseChunk (old.map Tok.litTok) = .ok r from hr]
    rfl]

/-- Claim C10: for a non-empty search term, the pattern built from `(?i)`
plus the escaped term always compiles, so the compile-error fallback of the
ignore-case branch is unreachable: the candidate content is always computed
from the compiled regex by matching and case-preserving replacement. -/
theorem claim10_ignore_case_compile (old content new : List Char) (_h : old ≠ []) :
    ∃ re, compileRegex (ciPrefix ++ escapeRust old) = .ok re ∧
      newContentOf content old new none true =
        (if isMatch re content then
          some (replaceAllFn re (fun m => applyCasePattern m new) content)
        else none) := by
  obtain ⟨re, hre⟩ := compileRegex_ci_escape old
  refine ⟨re, hre, ?_⟩
  unfold newContentOf
  simp [hre]

/-- Witness for C10: a term containing three meta characters compiles. -/
theorem claim10_witness :
    (compileRegex (ciPrefix ++ escapeRust "a+[x".toList)).isOk = true := by
  obtain ⟨re, h1, h2⟩ := claim10_ignore_case_compile "a+[x".toList "z".toList "y".toList
    (by decide)
  rw [h1]
  rfl

end Newtext
